import Mathlib

/-!
Shallow embedding of the k3s-health-agent RAG retrieval core:
`src/rag/rag_engine.py` (RAGEngine) and `src/rag/knowledge_base.py`
(KnowledgeBaseManager), together with models of their external
collaborators (the Qdrant vector store, the Cohere re-ranker and the
langchain RecursiveCharacterTextSplitter) as contracted in the design
document.
-/

/-- Scalar values stored in document metadata and in incident/solution
records (Python scalars: strings, ints, bools, None). -/
inductive MValue where
  | s (v : String)
  | i (v : Int)
  | b (v : Bool)
  | null
  deriving DecidableEq, Repr

/-- Python truthiness of a scalar, as used by `x or default`. -/
def MValue.truthy : MValue → Bool
  | .s v => v ≠ ""
  | .i v => v ≠ 0
  | .b v => v
  | .null => false

/-- Python `str()` rendering, as applied inside f-strings. -/
def MValue.render : MValue → String
  | .s v => v
  | .i v => toString v
  | .b true => "True"
  | .b false => "False"
  | .null => "None"

abbrev Metadata := List (String × MValue)

def mdLookup (k : String) (m : Metadata) : Option MValue :=
  List.lookup k m

/-- langchain `Document`: page content plus metadata. -/
structure Document where
  page_content : String
  metadata : Metadata
  deriving DecidableEq, Repr

/-- Qdrant metadata-filter semantics (design §4.3): a document matches a
filter iff its metadata matches every key/value pair exactly (conjunctive);
no filter matches everything. -/
def matchesFilter : Option Metadata → Document → Bool
  | none, _ => true
  | some f, d => f.all (fun kv => decide (mdLookup kv.1 d.metadata = some kv.2))

/-! ## String utilities (List Char level) -/

/-- Python `str.strip()` (ASCII-whitespace model). -/
def stripL (l : List Char) : List Char :=
  ((l.dropWhile Char.isWhitespace).reverse.dropWhile Char.isWhitespace).reverse

def stripS (s : String) : String := ⟨stripL s.data⟩

/-- Does `sep` occur at the head of the second list? -/
def leadsWith : List Char → List Char → Bool
  | [], _ => true
  | _ :: _, [] => false
  | a :: as, b :: bs => a == b && leadsWith as bs

/-- Does the (nonempty) literal separator occur anywhere in the text?
Models `re.search(re.escape(sep), text)`. -/
def occursIn (sep : List Char) : List Char → Bool
  | [] => leadsWith sep []
  | c :: rest => leadsWith sep (c :: rest) || occursIn sep rest

/-- `"".join` / `sep.join` of a list of strings. -/
def intercalc (sep : List Char) : List (List Char) → List Char
  | [] => []
  | [p] => p
  | p :: q :: rest => p ++ sep ++ intercalc sep (q :: rest)

/-! ## Chunker: langchain RecursiveCharacterTextSplitter as configured in
RAGEngine.__init__ (rag_engine.py lines 58-64): chunk_size 1000,
chunk_overlap 200, length_function len,
separators ["\n\n", "\n", "。", ".", " ", ""], keep_separator=True. -/

def chunkSize : Int := 1000

def chunkOverlap : Int := 200

/-- The separator-selection loop at the top of `_split_text`: scan the
separator list, stop at the first separator that is `""` or occurs in the
text; the remaining separators become `new_separators`.  Falling off the
end (no separator applies) selects the last separator with no remainder. -/
def chooseSep (text : List Char) : List (List Char) → List Char × List (List Char)
  | [] => ([], [])
  | [s] => (s, [])
  | s :: s' :: rest =>
    if s.isEmpty then ([], [])
    else if occursIn s text then (s, s' :: rest)
    else chooseSep text (s' :: rest)

/-- `_split_text_with_regex` with `keep_separator=True` on a nonempty
literal separator: split at non-overlapping leftmost occurrences, and
attach each separator occurrence to the front of the following piece.
Fuel-driven structural recursion; with fuel > remaining length the fuel-0
case is unreachable. -/
def splitKeepGo (s0 : Char) (sepr : List Char) : Nat → List Char → List Char → List (List Char)
  | 0, acc, _ => [acc.reverse]
  | _ + 1, acc, [] => [acc.reverse]
  | fuel + 1, acc, c :: rest =>
    if leadsWith (s0 :: sepr) (c :: rest) then
      acc.reverse :: splitKeepGo s0 sepr fuel ((s0 :: sepr).reverse) (rest.drop sepr.length)
    else
      splitKeepGo s0 sepr fuel (c :: acc) rest

/-- `_split_text_with_regex` (keep_separator=True): empty separator means
character-level split (`list(text)`); empty pieces are discarded. -/
def splitPieces (sep text : List Char) : List (List Char) :=
  (match sep with
   | [] => text.map (fun c => [c])
   | s0 :: sepr => splitKeepGo s0 sepr (text.length + 1) [] text).filter
    (fun p => ¬ p.isEmpty)

/-- `_join_docs`: join the accumulated pieces, strip whitespace, drop the
result if it is empty. -/
def joinDocs (docs : List (List Char)) (sep : List Char) : Option (List Char) :=
  let text := stripL (intercalc sep docs)
  if text.isEmpty then none else some text

/-- The `while` loop inside `_merge_splits` that pops pieces from the head
of `current_doc` until the next piece fits. -/
def popLoop (sepLen dLen : Int) : List (List Char) → Int → List (List Char) × Int
  | [], total => ([], total)
  | p :: cur, total =>
    if total > chunkOverlap ∨
        (total + dLen + (if (p :: cur).length > 1 then sepLen else 0) > chunkSize ∧ total > 0) then
      popLoop sepLen dLen cur (total - ((p.length : Int) + (if (p :: cur).length > 1 then sepLen else 0)))
    else (p :: cur, total)

/-- The main loop of `_merge_splits`: accumulate pieces into
`current_doc`, flushing (join + pop window back to the overlap budget)
whenever the next piece would overflow `chunk_size`. -/
def mergeLoop (sep : List Char) : List (List Char) → List (List Char) → Int → List (List Char) → List (List Char)
  | [], cur, _, docs => docs ++ (joinDocs cur sep).toList
  | d :: rest, cur, total, docs =>
    let dLen : Int := d.length
    let sepLen : Int := sep.length
    if total + dLen + (if cur.length > 0 then sepLen else 0) > chunkSize then
      let docs1 := if cur.length > 0 then docs ++ (joinDocs cur sep).toList else docs
      let pr := if cur.length > 0 then popLoop sepLen dLen cur total else (cur, total)
      let cur1 := pr.1 ++ [d]
      mergeLoop sep rest cur1 (pr.2 + dLen + (if cur1.length > 1 then sepLen else 0)) docs1
    else
      let cur1 := cur ++ [d]
      mergeLoop sep rest cur1 (total + dLen + (if cur1.length > 1 then sepLen else 0)) docs

def mergeSplits (splits : List (List Char)) (sep : List Char) : List (List Char) :=
  mergeLoop sep splits [] 0 []

/-- The good/bad split loop of `_split_text`: pieces shorter than
`chunk_size` are buffered and merged; longer pieces flush the buffer and
are either recursed into (`recurse`, on the remaining separators) or, when
`new_separators` is empty (`noNew`), emitted as-is.  The merge separator is
`""` because keep_separator is set. -/
def procSplits (recurse : List Char → List (List Char)) (noNew : Bool) (mergeSep : List Char) :
    List (List Char) → List (List Char) → List (List Char)
  | [], good => if good.isEmpty then [] else mergeSplits good mergeSep
  | s :: rest, good =>
    if (s.length : Int) < chunkSize then
      procSplits recurse noNew mergeSep rest (good ++ [s])
    else
      (if good.isEmpty then [] else mergeSplits good mergeSep) ++
      (if noNew then [s] else recurse s) ++
      procSplits recurse noNew mergeSep rest []

/-- `_split_text`, fuel-driven on the separator list (each recursive call
uses a strict suffix of the separators, so fuel > separators length makes
the fuel-0 case unreachable). -/
def splitTextFuel : Nat → List Char → List (List Char) → List (List Char)
  | 0, text, _ => [text]
  | fuel + 1, text, seps =>
    let c := chooseSep text seps
    procSplits (fun s => splitTextFuel fuel s c.2) c.2.isEmpty [] (splitPieces c.1 text) []

/-- The configured separator preference list. -/
def theSeparators : List (List Char) := [['\n', '\n'], ['\n'], ['。'], ['.'], [' '], []]

/-- `split_text` of the configured splitter. -/
def split_text (s : String) : List String :=
  (splitTextFuel (theSeparators.length + 1) s.data theSeparators).map (fun cs => ⟨cs⟩)

/-- `TextSplitter.split_documents` / `create_documents`: each chunk becomes
a new Document carrying a copy of the source document's metadata. -/
def split_documents (docs : List Document) : List Document :=
  docs.flatMap (fun d => (split_text d.page_content).map
    (fun c => { page_content := c, metadata := d.metadata }))

/-! ## Retrieval engine (rag_engine.py) -/

/-- Model of the external vector index (QdrantVectorStore): `ranked q` is
the full list of indexed entries in similarity order for query `q` (the
embedding of the query and nearest-neighbour order are external); `failure`
simulates a backend or embedding-provider error for a given query/filter
sub-call.  `vsSearch` below is the design-§4.3 contract: up to `k` nearest
entries restricted to those matching the filter. -/
structure VectorStore where
  ranked : String → List Document
  failure : String → Option Metadata → Option String

def vsSearch (vs : VectorStore) (q : String) (k : Nat) (f : Option Metadata) :
    Except String (List Document) :=
  match vs.failure q f with
  | some e => .error e
  | none => .ok (((vs.ranked q).filter (matchesFilter f)).take k)

/-- Model of CohereRerank: an external relevance reordering of the
candidate set plus the `top_n` cutoff applied to its output. -/
structure Reranker where
  top_n : Nat
  reorder : String → List Document → List Document

/-- `CohereRerank.compress_documents`: at most `top_n` of the reordered
candidates. -/
def rerankCompress (r : Reranker) (q : String) (ds : List Document) : List Document :=
  (r.reorder q ds).take r.top_n

structure RAGEngine where
  store : VectorStore
  reranker : Option Reranker

/-- Python truthiness of `config.get("cohere_api_key")`. -/
def keyTruthy : Option String → Bool
  | some s => s ≠ ""
  | none => false

/-- `RAGEngine.__init__` (rag_engine.py lines 52-56): the re-ranker is
configured iff `cohere_api_key` is truthy, with `top_n` fixed to 5. -/
def mkRAGEngine (store : VectorStore) (cohereKey : Option String)
    (reorder : String → List Document → List Document) : RAGEngine :=
  { store := store,
    reranker :=
      if keyTruthy cohereKey then some { top_n := 5, reorder := reorder }
      else none }

/-- `RAGEngine.retrieve` (rag_engine.py lines 104-137): request `k * 2`
candidates when the re-ranker is configured (else `k`), compress through
the re-ranker when configured, and catch any backend failure, returning
the empty list. -/
def retrieve (e : RAGEngine) (q : String) (k : Nat) (f : Option Metadata) : List Document :=
  match vsSearch e.store q (match e.reranker with | some _ => k * 2 | none => k) f with
  | .error _ => []
  | .ok docs =>
    match e.reranker with
    | some r => rerankCompress r q docs
    | none => docs

/-- `RAGEngine.retrieve_by_category` (rag_engine.py lines 139-143): the
filter built by the source is `{"category": category}`. -/
def retrieve_by_category (e : RAGEngine) (q category : String) (k : Nat) : List Document :=
  retrieve e q k (some [("category", MValue.s category)])

def retrieve_similar_incidents (e : RAGEngine) (q : String) (k : Nat := 3) : List Document :=
  retrieve e q k (some [("doc_type", MValue.s "incident")])

def retrieve_solutions (e : RAGEngine) (q : String) (k : Nat := 3) : List Document :=
  retrieve e q k (some [("doc_type", MValue.s "solution")])

def retrieve_best_practices (e : RAGEngine) (q : String) (k : Nat := 3) : List Document :=
  retrieve e q k (some [("doc_type", MValue.s "best_practice")])

/-- Python `hash()` on page content, abstracted as collision-free (the
dedup set stores these hashes; the embedding identifies a hash with the
hashed content itself). -/
def contentHash (s : String) : String := s

/-- The loop of `RAGEngine._deduplicate_documents` (rag_engine.py lines
183-194): `seen` is the set of content hashes encountered so far. -/
def dedupAux : List String → List Document → List Document
  | _, [] => []
  | seen, d :: rest =>
    if contentHash d.page_content ∈ seen then dedupAux seen rest
    else d :: dedupAux (contentHash d.page_content :: seen) rest

def deduplicate_documents (docs : List Document) : List Document :=
  dedupAux [] docs

/-- `RAGEngine.hybrid_retrieve` (rag_engine.py lines 162-181). -/
def hybrid_retrieve (e : RAGEngine) (q : String) (k : Nat) : List Document :=
  (deduplicate_documents
    (retrieve_similar_incidents e q 2 ++ retrieve_solutions e q 2 ++
      retrieve_best_practices e q 1)).take k

/-- The fixed no-results sentinel of `format_retrieved_context`. -/
def noResultsMsg : String := "没有找到相关的历史案例或文档。"

/-- `metadata.get(key, "unknown")` rendered through the f-string. -/
def mdRender (k : String) (d : Document) : String :=
  match mdLookup k d.metadata with
  | some v => v.render
  | none => "unknown"

/-- One numbered block of `format_retrieved_context`. -/
def refBlock (i : Nat) (d : Document) : String :=
  "### 参考资料 " ++ toString i ++ " (" ++ mdRender "doc_type" d ++ ")\n" ++
  "来源: " ++ mdRender "source" d ++ "\n" ++
  "内容:\n" ++ d.page_content ++ "\n"

/-- The `enumerate(docs, 1)` loop building `context_parts`. -/
def contextParts : Nat → List Document → List String
  | _, [] => []
  | i, d :: rest => refBlock i d :: contextParts (i + 1) rest

/-- Python `"\n".join`. -/
def joinParts : List String → String
  | [] => ""
  | [p] => p
  | p :: q :: rest => p ++ "\n" ++ joinParts (q :: rest)

/-- `RAGEngine.format_retrieved_context` (rag_engine.py lines 196-213). -/
def format_retrieved_context (docs : List Document) : String :=
  if docs = [] then noResultsMsg else joinParts (contextParts 1 docs)

/-! ## Knowledge base manager (knowledge_base.py) -/

abbrev Rec := List (String × MValue)

def recGet (k : String) (r : Rec) : Option MValue :=
  List.lookup k r

/-- Python dict assignment `rec[k] = v` (an existing key keeps its
position; a new key is appended). -/
def recSet (k : String) (v : MValue) : Rec → Rec
  | [] => [(k, v)]
  | (k', v') :: rest => if k' = k then (k, v) :: rest else (k', v') :: recSet k v rest

/-- The durable record store: one sub-collection of `<name>.json` files for
incidents and one for solutions (file writes overwrite an existing file of
the same name). -/
structure KBState where
  incidentFiles : List (String × Rec)
  solutionFiles : List (String × Rec)
  deriving DecidableEq, Repr

def filesWrite (name : String) (r : Rec) : List (String × Rec) → List (String × Rec)
  | [] => [(name, r)]
  | (n, r') :: rest => if n = name then (name, r) :: rest else (n, r') :: filesWrite name r rest

def filesRead (name : String) (fs : List (String × Rec)) : Option Rec :=
  List.lookup name fs

/-- `KnowledgeBaseManager._generate_id` (knowledge_base.py lines 337-340):
prefix plus the current time formatted at second granularity
(`strftime("%Y%m%d%H%M%S")`, passed in as `stamp`). -/
def generate_id (pre stamp : String) : String := pre ++ "-" ++ stamp

/-- `dict.get(k)` rendered through the f-string (`None` for a missing key). -/
def getStr (k : String) (r : Rec) : String :=
  match recGet k r with
  | some v => v.render
  | none => "None"

/-- `KnowledgeBaseManager._format_incident` (knowledge_base.py lines
229-250): the f-string template followed by `.strip()`. -/
def format_incident (incident : Rec) : String :=
  stripS ("\n【历史事件记录】\n事件ID: " ++ getStr "id" incident ++
    "\n发生时间: " ++ getStr "timestamp" incident ++
    "\n严重程度: " ++ getStr "severity" incident ++
    "\n\n问题描述:\n" ++ getStr "description" incident ++
    "\n\n影响范围:\n" ++ getStr "impact" incident ++
    "\n\n根因分析:\n" ++ getStr "root_cause" incident ++
    "\n\n解决方案:\n" ++ getStr "solution" incident ++
    "\n\n解决时间: " ++ getStr "resolution_time" incident ++ "\n        ")

/-- `KnowledgeBaseManager._format_solution` (knowledge_base.py lines
252-271); `success_rate` uses `.get("success_rate", "N/A")`. -/
def format_solution (solution : Rec) : String :=
  stripS ("\n【解决方案】\n方案ID: " ++ getStr "id" solution ++
    "\n问题类型: " ++ getStr "problem_type" solution ++
    "\n成功率: " ++ (match recGet "success_rate" solution with
                      | some v => v.render
                      | none => "N/A") ++
    "\n\n问题特征:\n" ++ getStr "problem_pattern" solution ++
    "\n\n解决步骤:\n" ++ getStr "solution_steps" solution ++
    "\n\n预防措施:\n" ++ getStr "prevention" solution ++
    "\n\n注意事项:\n" ++ getStr "notes" solution ++ "\n        ")

/-- `incident.get("id") or self._generate_id(prefix)`. -/
def orGenId (r : Rec) (pre stamp : String) : MValue :=
  match recGet "id" r with
  | some v => if v.truthy then v else .s (generate_id pre stamp)
  | none => .s (generate_id pre stamp)

/-- `KnowledgeBaseManager.add_incident` (knowledge_base.py lines 273-304).
The wall-clock readings are explicit inputs (`nowIso` models
`datetime.now().isoformat()`, `nowStamp` models
`strftime("%Y%m%d%H%M%S")`); `idxAdd` models
`rag_engine.add_documents` on the chunked document, which may fail.  The
returned state reflects the durable file write (performed before the index
write and not rolled back); the Except value is the call's outcome — the
`except` block logs and re-raises, so an index failure propagates. -/
def add_incident (idxAdd : List Document → Except String (List String))
    (kb : KBState) (incident : Rec) (nowIso nowStamp : String) :
    KBState × Except String String :=
  let idv := orGenId incident "INC" nowStamp
  let tsv : MValue :=
    match recGet "timestamp" incident with
    | some v => if v.truthy then v else .s nowIso
    | none => .s nowIso
  let inc1 := recSet "timestamp" tsv (recSet "id" idv incident)
  let kb1 := { kb with incidentFiles := filesWrite (idv.render ++ ".json") inc1 kb.incidentFiles }
  let doc : Document :=
    { page_content := format_incident inc1,
      metadata := [("doc_type", .s "incident"), ("incident_id", idv),
                   ("severity", (recGet "severity" inc1).getD .null),
                   ("timestamp", tsv)] }
  match idxAdd (split_documents [doc]) with
  | .error e => (kb1, .error e)
  | .ok _ => (kb1, .ok idv.render)

/-- `KnowledgeBaseManager.add_solution` (knowledge_base.py lines 306-335);
no timestamp is assigned here. -/
def add_solution (idxAdd : List Document → Except String (List String))
    (kb : KBState) (solution : Rec) (nowStamp : String) :
    KBState × Except String String :=
  let idv := orGenId solution "SOL" nowStamp
  let sol1 := recSet "id" idv solution
  let kb1 := { kb with solutionFiles := filesWrite (idv.render ++ ".json") sol1 kb.solutionFiles }
  let doc : Document :=
    { page_content := format_solution sol1,
      metadata := [("doc_type", .s "solution"), ("solution_id", idv),
                   ("problem_type", (recGet "problem_type" sol1).getD .null)] }
  match idxAdd (split_documents [doc]) with
  | .error e => (kb1, .error e)
  | .ok _ => (kb1, .ok idv.render)

/-- `KnowledgeBaseManager.search_knowledge_base` (knowledge_base.py lines
342-344): delegates to `hybrid_retrieve`. -/
def search_knowledge_base (e : RAGEngine) (q : String) (k : Nat := 5) : List Document :=
  hybrid_retrieve e q k

/-- Spec-side statement of the deduplication algorithm (design §4.5): keep
the first occurrence of each content hash, drop every later document whose
content hashes the same, preserve the order otherwise.  Written from the
spec's words, to be compared with the source-derived
`deduplicate_documents`. -/
def dedupSpecFirstWins : List Document → List Document
  | [] => []
  | d :: rest =>
    d :: dedupSpecFirstWins
      (rest.filter (fun x => contentHash x.page_content ≠ contentHash d.page_content))
termination_by l => l.length
decreasing_by
  simp only [List.length_cons]
  exact Nat.lt_succ_of_le (List.length_filter_le _ _)

/-! ## Concrete fixtures used by witnesses and counterexamples -/

/-- A concrete incident-typed document. -/
def docIncA : Document :=
  { page_content := "pod crashlooping",
    metadata := [("doc_type", MValue.s "incident"), ("source", MValue.s "f.json")] }

/-- A document tagged with a given doc_type only. -/
def mkDoc (c ty : String) : Document :=
  { page_content := c, metadata := [("doc_type", MValue.s ty)] }

/-- A store whose only entry is `docIncA` (never fails). -/
def vsIncOnly : VectorStore :=
  { ranked := fun _ => [docIncA], failure := fun _ _ => none }

/-- The engine over `vsIncOnly` without a re-ranker. -/
def engNoRerank : RAGEngine := mkRAGEngine vsIncOnly none (fun _ ds => ds)

/-- Ten distinct documents: four incidents, four solutions, two best
practices, in similarity order. -/
def tenDocs : List Document :=
  [mkDoc "i1" "incident", mkDoc "i2" "incident", mkDoc "i3" "incident",
   mkDoc "i4" "incident", mkDoc "s1" "solution", mkDoc "s2" "solution",
   mkDoc "s3" "solution", mkDoc "s4" "solution", mkDoc "b1" "best_practice",
   mkDoc "b2" "best_practice"]

def vsTen : VectorStore := { ranked := fun _ => tenDocs, failure := fun _ _ => none }

/-- Engine over `vsTen` with a configured (identity-reordering) re-ranker. -/
def engRerank : RAGEngine := mkRAGEngine vsTen (some "ck") (fun _ ds => ds)

/-- A store that fails on the incident-filtered sub-query only. -/
def vsIncFails : VectorStore :=
  { ranked := fun _ => tenDocs,
    failure := fun _ f =>
      if f = some [("doc_type", MValue.s "incident")] then some "qdrant down" else none }

def engIncFails : RAGEngine := mkRAGEngine vsIncFails none (fun _ ds => ds)

def kbEmpty : KBState := { incidentFiles := [], solutionFiles := [] }

/-- An incident record with neither id nor timestamp. -/
def incRecA : Rec := [("description", MValue.s "pod crashlooping"), ("severity", MValue.s "high")]

def solRecA : Rec := [("problem_type", MValue.s "crashloop"), ("notes", MValue.s "first")]

def solRecB : Rec := [("problem_type", MValue.s "crashloop"), ("notes", MValue.s "second")]

/-- An index backend that always fails. -/
def idxFailDown : List Document → Except String (List String) := fun _ => .error "index down"

/-- An index backend that always succeeds. -/
def idxOk : List Document → Except String (List String) := fun _ => .ok []

def stampT : String := "20240101120000"

def isoT : String := "2024-01-01T12:00:00"

/-! ## Helper lemmas -/

theorem filterMap_congr_mem {α β : Type _} (l : List α) (f g : α → Option β)
    (h : ∀ a ∈ l, f a = g a) : l.filterMap f = l.filterMap g := by
  induction l with
  | nil => rfl
  | cons a l ih =>
    simp only [List.filterMap_cons, h a (by simp)]
    rw [ih (fun x hx => h x (by simp [hx]))]

theorem dedupAux_not_seen (l : List Document) : ∀ seen x, x ∈ dedupAux seen l →
    contentHash x.page_content ∉ seen := by
  induction l with
  | nil => intro seen x hx; cases hx
  | cons d rest ih =>
    intro seen x hx
    by_cases hd : contentHash d.page_content ∈ seen
    · rw [dedupAux, if_pos hd] at hx
      exact ih seen x hx
    · rw [dedupAux, if_neg hd] at hx
      rcases List.mem_cons.mp hx with h | h
      · exact h ▸ hd
      · intro hmem
        exact ih _ x h (List.mem_cons_of_mem _ hmem)

theorem dedupAux_pairwise (l : List Document) : ∀ seen,
    (dedupAux seen l).Pairwise
      (fun a b => contentHash a.page_content ≠ contentHash b.page_content) := by
  induction l with
  | nil => intro seen; exact List.Pairwise.nil
  | cons d rest ih =>
    intro seen
    by_cases hd : contentHash d.page_content ∈ seen
    · rw [dedupAux, if_pos hd]; exact ih seen
    · rw [dedupAux, if_neg hd]
      refine List.Pairwise.cons ?_ (ih _)
      intro x hx heq
      exact dedupAux_not_seen rest _ x hx (heq ▸ List.mem_cons_self _ _)

theorem dedupAux_id_of (l : List Document) : ∀ seen,
    l.Pairwise (fun a b => contentHash a.page_content ≠ contentHash b.page_content) →
    (∀ x ∈ l, contentHash x.page_content ∉ seen) →
    dedupAux seen l = l := by
  induction l with
  | nil => intro seen _ _; rfl
  | cons d rest ih =>
    intro seen hpw hout
    rw [dedupAux, if_neg (hout d (List.mem_cons_self _ _))]
    congr 1
    apply ih
    · exact hpw.of_cons
    · intro x hx
      simp only [List.mem_cons]
      rintro (h | h)
      · exact (List.pairwise_cons.mp hpw).1 x hx h.symm
      · exact hout x (List.mem_cons_of_mem _ hx) h

theorem dedupAux_sublist (l : List Document) : ∀ seen, (dedupAux seen l).Sublist l := by
  induction l with
  | nil => intro seen; exact List.Sublist.refl []
  | cons d rest ih =>
    intro seen
    by_cases hd : contentHash d.page_content ∈ seen
    · rw [dedupAux, if_pos hd]; exact (ih seen).cons d
    · rw [dedupAux, if_neg hd]; exact (ih _).cons₂ d


theorem dedupAux_eq_spec (l : List Document) : ∀ seen : List String,
    dedupAux seen l =
      dedupSpecFirstWins (l.filter (fun x => contentHash x.page_content ∉ seen)) := by
  induction l with
  | nil => intro seen; simp [dedupAux, dedupSpecFirstWins]
  | cons d rest ih =>
    intro seen
    by_cases hd : contentHash d.page_content ∈ seen
    · rw [dedupAux, if_pos hd, List.filter_cons_of_neg (by simpa using hd)]
      exact ih seen
    · rw [dedupAux, if_neg hd, List.filter_cons_of_pos (by simpa using hd),
        dedupSpecFirstWins]
      congr 1
      rw [ih (contentHash d.page_content :: seen), List.filter_filter]
      congr 1
      apply List.filter_congr
      intro x _
      simp only [List.mem_cons, not_or, ne_eq, Bool.decide_and]

/-- C4: the deduplication used by hybrid_retrieve keeps exactly the first
occurrence of each content hash (later documents with an already-seen hash
are dropped, the relative order of kept documents is preserved, only
identical content is merged), and it is idempotent. -/
theorem C4_dedup_first_occurrence_and_idempotent (l : List Document) :
    deduplicate_documents l = dedupSpecFirstWins l ∧
    deduplicate_documents (deduplicate_documents l) = deduplicate_documents l := by
  constructor
  · rw [deduplicate_documents, dedupAux_eq_spec]
    congr 1
    simp
  · rw [deduplicate_documents, deduplicate_documents]
    exact dedupAux_id_of _ [] (dedupAux_pairwise l []) (by simp)

theorem joinParts_factor : ∀ (ds : List Document) (i j : Nat) (hj : j < ds.length),
    ∃ pre post, joinParts (contextParts i ds) =
      pre ++ refBlock (i + j) (ds.get ⟨j, hj⟩) ++ post := by
  intro ds
  induction ds with
  | nil => intro i j hj; exact absurd hj (Nat.not_lt_zero j)
  | cons d rest ih =>
    intro i j hj
    cases j with
    | zero =>
      cases rest with
      | nil =>
        refine ⟨"", "", ?_⟩
        simp [contextParts, joinParts]
      | cons e tail =>
        refine ⟨"", "\n" ++ joinParts (contextParts (i + 1) (e :: tail)), ?_⟩
        show refBlock i d ++ "\n" ++ joinParts (contextParts (i + 1) (e :: tail)) = _
        simp [String.append_assoc]
    | succ j' =>
      cases rest with
      | nil => exact absurd hj (by simp)
      | cons e tail =>
        obtain ⟨pre, post, h⟩ := ih (i + 1) j' (Nat.lt_of_succ_lt_succ hj)
        refine ⟨refBlock i d ++ "\n" ++ pre, post, ?_⟩
        show refBlock i d ++ "\n" ++ joinParts (contextParts (i + 1) (e :: tail)) = _
        rw [h, show i + (j' + 1) = i + 1 + j' by omega]
        simp [String.append_assoc]

/-- C8: `format_retrieved_context []` is the fixed non-empty no-results
sentinel, and for every non-empty input the output decomposes around the
numbered block of each document, the block carrying the document's
doc_type, source and content. -/
theorem C8_format_context_blocks (docs : List Document) (j : Nat) (hj : j < docs.length) :
    format_retrieved_context [] = noResultsMsg ∧
    noResultsMsg ≠ "" ∧
    ∃ pre post, format_retrieved_context docs =
      pre ++ ("### 参考资料 " ++ toString (1 + j) ++ " (" ++
        mdRender "doc_type" (docs.get ⟨j, hj⟩) ++ ")\n" ++ "来源: " ++
        mdRender "source" (docs.get ⟨j, hj⟩) ++ "\n" ++ "内容:\n" ++
        (docs.get ⟨j, hj⟩).page_content ++ "\n") ++ post := by
  refine ⟨rfl, by decide, ?_⟩
  obtain ⟨pre, post, h⟩ := joinParts_factor docs 1 j hj
  refine ⟨pre, post, ?_⟩
  rw [format_retrieved_context, if_neg (by rintro rfl; exact absurd hj (by simp))]
  rw [h]
  rw [show (1 : Nat) + j = 1 + j from rfl]
  rfl

/-- Witness for C8 at a concrete one-document list. -/
theorem C8_format_context_blocks_witness :
    format_retrieved_context [] = noResultsMsg ∧
    noResultsMsg ≠ "" ∧
    ∃ pre post, format_retrieved_context [docIncA] =
      pre ++ ("### 参考资料 " ++ toString (1 + 0) ++ " (" ++
        mdRender "doc_type" (([docIncA] : List Document).get ⟨0, by decide⟩) ++ ")\n" ++ "来源: " ++
        mdRender "source" (([docIncA] : List Document).get ⟨0, by decide⟩) ++ "\n" ++ "内容:\n" ++
        (([docIncA] : List Document).get ⟨0, by decide⟩).page_content ++ "\n") ++ post :=
  C8_format_context_blocks [docIncA] 0 (by decide)

theorem retrieve_error_empty (e : RAGEngine) (q : String) (k : Nat)
    (f : Option Metadata) (err : String)
    (hf : e.store.failure q f = some err) : retrieve e q k f = [] := by
  rw [retrieve, vsSearch, hf]

/-- C5: a vector-index/embedding failure inside any retrieve* call is
caught and converted to the empty list, and hybrid_retrieve applies this
per sub-query: when the incident sub-query fails but the others succeed,
the solution and best-practice results are still returned. -/
theorem C5_failures_caught_per_subquery (e : RAGEngine) (q : String) :
    (∀ (k : Nat) (f : Option Metadata) (err : String),
      e.store.failure q f = some err → retrieve e q k f = []) ∧
    (∀ (k : Nat) (err : String),
      e.store.failure q (some [("doc_type", MValue.s "incident")]) = some err →
      hybrid_retrieve e q k =
        (deduplicate_documents
          (retrieve_solutions e q 2 ++ retrieve_best_practices e q 1)).take k) := by
  constructor
  · intro k f err hf
    exact retrieve_error_empty e q k f err hf
  · intro k err hf
    rw [hybrid_retrieve, retrieve_similar_incidents,
      retrieve_error_empty e q 2 _ err hf, List.nil_append]

/-- Witness for C5 on the concrete store that fails exactly on the
incident-filtered sub-query. -/
theorem C5_failures_caught_per_subquery_witness :
    (∀ (k : Nat) (f : Option Metadata) (err : String),
      engIncFails.store.failure "q" f = some err → retrieve engIncFails "q" k f = []) ∧
    (∀ (k : Nat) (err : String),
      engIncFails.store.failure "q" (some [("doc_type", MValue.s "incident")]) = some err →
      hybrid_retrieve engIncFails "q" k =
        (deduplicate_documents
          (retrieve_solutions engIncFails "q" 2 ++
            retrieve_best_practices engIncFails "q" 1)).take k) :=
  C5_failures_caught_per_subquery engIncFails "q"

/-- C10: with a truthy cohere key the construction fixes top_n := 5; the
engine then requests k * 2 candidates and returns the top-5 cut of the
re-ranked pool, hence at most 5 documents whatever k is; without the key
it requests exactly k candidates and returns at most k documents. -/
theorem C10_reranker_bounds (store : VectorStore) (key : String)
    (reorder : String → List Document → List Document) (q : String) (k : Nat)
    (f : Option Metadata) (hkey : key ≠ "") :
    (mkRAGEngine store (some key) reorder).reranker = some { top_n := 5, reorder := reorder } ∧
    retrieve (mkRAGEngine store (some key) reorder) q k f =
      (match vsSearch store q (k * 2) f with
       | .error _ => []
       | .ok ds => (reorder q ds).take 5) ∧
    (retrieve (mkRAGEngine store (some key) reorder) q k f).length ≤ 5 ∧
    (mkRAGEngine store none reorder).reranker = none ∧
    retrieve (mkRAGEngine store none reorder) q k f =
      (match vsSearch store q k f with
       | .error _ => []
       | .ok ds => ds) ∧
    (retrieve (mkRAGEngine store none reorder) q k f).length ≤ k := by
  have hky : keyTruthy (some key) = true := by simp [keyTruthy, hkey]
  refine ⟨by simp [mkRAGEngine, hky], ?_, ?_, by simp [mkRAGEngine, keyTruthy], ?_, ?_⟩
  · rw [retrieve]
    simp only [mkRAGEngine, hky, if_pos]
    cases hv : vsSearch store q (k * 2) f <;> simp [rerankCompress]
  · rw [retrieve]
    simp only [mkRAGEngine, hky, if_pos]
    cases hv : vsSearch store q (k * 2) f with
    | error e2 => simp
    | ok ds => simp [rerankCompress, List.length_take]
  · rw [retrieve]
    simp [mkRAGEngine, keyTruthy]
  · rw [retrieve]
    simp only [mkRAGEngine, keyTruthy, Bool.false_eq_true, if_false]
    cases hfail : store.failure q f with
    | some e2 => simp [vsSearch, hfail]
    | none =>
      simp only [vsSearch, hfail]
      simp [List.length_take]

/-- Witness for C10 at a concrete store, key and k. -/
theorem C10_reranker_bounds_witness :
    (mkRAGEngine vsTen (some "ck") (fun _ ds => ds)).reranker =
      some { top_n := 5, reorder := fun _ ds => ds } ∧
    retrieve (mkRAGEngine vsTen (some "ck") (fun _ ds => ds)) "q" 7 none =
      (match vsSearch vsTen "q" (7 * 2) none with
       | .error _ => []
       | .ok ds => ((fun (_ : String) (ds : List Document) => ds) "q" ds).take 5) ∧
    (retrieve (mkRAGEngine vsTen (some "ck") (fun _ ds => ds)) "q" 7 none).length ≤ 5 ∧
    (mkRAGEngine vsTen none (fun _ ds => ds)).reranker = none ∧
    retrieve (mkRAGEngine vsTen none (fun _ ds => ds)) "q" 7 none =
      (match vsSearch vsTen "q" 7 none with
       | .error _ => []
       | .ok ds => ds) ∧
    (retrieve (mkRAGEngine vsTen none (fun _ ds => ds)) "q" 7 none).length ≤ 7 :=
  C10_reranker_bounds vsTen "ck" (fun _ ds => ds) "q" 7 none (by decide)

/-- C1 counterexample: on a store holding one document whose metadata is
{doc_type: incident} (and no "category" key), `retrieve_by_category` with
category "incident" returns nothing, while the base retrieve with the
claimed filter {doc_type: incident} returns the document — the wrapper
builds the filter on the "category" key, not on "doc_type". -/
theorem C1_counterexample :
    retrieve_by_category engNoRerank "q" "incident" 5 = [] ∧
    retrieve engNoRerank "q" 5 (some [("doc_type", MValue.s "incident")]) = [docIncA] ∧
    retrieve_by_category engNoRerank "q" "incident" 5 ≠
      retrieve engNoRerank "q" 5 (some [("doc_type", MValue.s "incident")]) := by
  refine ⟨?_, ?_, ?_⟩ <;> decide

theorem mem_retrieve_matches (e : RAGEngine) (q : String) (k : Nat) (f : Option Metadata)
    (hr : ∀ r, e.reranker = some r → ∀ q2 ds d, d ∈ r.reorder q2 ds → d ∈ ds)
    (d : Document) (hd : d ∈ retrieve e q k f) : matchesFilter f d = true := by
  rw [retrieve] at hd
  cases hfail : e.store.failure q f with
  | some e2 =>
    rw [vsSearch, hfail] at hd
    simp at hd
  | none =>
    rw [vsSearch, hfail] at hd
    simp only at hd
    cases hre : e.reranker with
    | none =>
      rw [hre] at hd
      exact List.of_mem_filter (List.mem_of_mem_take hd)
    | some r =>
      rw [hre] at hd
      simp only [rerankCompress] at hd
      have h2 := hr r hre q _ d (List.mem_of_mem_take hd)
      exact List.of_mem_filter (List.mem_of_mem_take h2)

/-- C1 amended: `retrieve_by_category(q, c, k)` performs the base retrieve
with the metadata filter {category: c} (the category string is passed
through unchanged; there is no doc_type mapping), and — provided the
re-ranker, when configured, only reorders its candidate pool — every
document it returns carries metadata whose "category" key equals c. -/
theorem C1_amended_category_filter (e : RAGEngine) (q c : String) (k : Nat)
    (hr : ∀ r, e.reranker = some r → ∀ q2 ds d, d ∈ r.reorder q2 ds → d ∈ ds) :
    retrieve_by_category e q c k = retrieve e q k (some [("category", MValue.s c)]) ∧
    ∀ d ∈ retrieve_by_category e q c k,
      mdLookup "category" d.metadata = some (MValue.s c) := by
  refine ⟨rfl, ?_⟩
  intro d hd
  have h := mem_retrieve_matches e q k (some [("category", MValue.s c)]) hr d hd
  rw [matchesFilter] at h
  simpa using h

/-- Witness for C1 amended on the concrete no-re-ranker engine. -/
theorem C1_amended_category_filter_witness :
    retrieve_by_category engNoRerank "q" "incident" 5 =
      retrieve engNoRerank "q" 5 (some [("category", MValue.s "incident")]) ∧
    ∀ d ∈ retrieve_by_category engNoRerank "q" "incident" 5,
      mdLookup "category" d.metadata = some (MValue.s "incident") :=
  C1_amended_category_filter engNoRerank "q" "incident" 5
    (by intro r hr; simp [engNoRerank, mkRAGEngine, keyTruthy] at hr)

/-- C3 counterexample: with the re-ranker configured (identity reordering)
and ten distinct backing documents, each sub-retrieval oversamples (2k
candidates cut at top_n 5), so hybrid_retrieve "q" 7 returns 7 documents,
exceeding the claimed min(k, 5) = 5 bound. -/
theorem C3_counterexample :
    (hybrid_retrieve engRerank "q" 7).length = 7 ∧
    ¬ (hybrid_retrieve engRerank "q" 7).length ≤ min 7 5 := by
  constructor <;> decide

theorem retrieve_length_bound_none (e : RAGEngine) (q : String) (k : Nat)
    (f : Option Metadata) (hre : e.reranker = none) :
    (retrieve e q k f).length ≤ k := by
  rw [retrieve, hre]
  cases hfail : e.store.failure q f with
  | some e2 => simp [vsSearch, hfail]
  | none => simp [vsSearch, hfail, List.length_take]

theorem retrieve_length_bound_some (e : RAGEngine) (q : String) (k : Nat)
    (f : Option Metadata) (r : Reranker) (hre : e.reranker = some r)
    (hlen : ∀ q2 ds, (r.reorder q2 ds).length ≤ ds.length) :
    (retrieve e q k f).length ≤ k * 2 := by
  rw [retrieve, hre]
  cases hfail : e.store.failure q f with
  | some e2 => simp [vsSearch, hfail]
  | none =>
    simp only [vsSearch, hfail, rerankCompress]
    have h1 := hlen q (((e.store.ranked q).filter (matchesFilter f)).take (k * 2))
    have h2 : (((e.store.ranked q).filter (matchesFilter f)).take (k * 2)).length ≤ k * 2 :=
      List.length_take_le _ _
    have h3 : ((r.reorder q (((e.store.ranked q).filter (matchesFilter f)).take (k * 2))).take
        r.top_n).length ≤
        (r.reorder q (((e.store.ranked q).filter (matchesFilter f)).take (k * 2))).length := by
      simp [List.length_take]
    exact le_trans h3 (le_trans h1 h2)

theorem dedup_length_le (l : List Document) :
    (deduplicate_documents l).length ≤ l.length :=
  (dedupAux_sublist l []).length_le

/-- C3 amended: hybrid_retrieve issues exactly the three filtered
sub-retrievals with fixed budgets 2 (incidents), 2 (solutions), 1 (best
practices), concatenates them in that order, deduplicates, then truncates
to k.  The min(k, 5) output bound holds when no re-ranker is configured;
with the construction-time re-ranker (top_n 5, oversampling 2k) the three
sub-results are bounded by 4, 4 and 2, so the output is bounded by
min(k, 10) instead. -/
theorem C3_amended_hybrid_budgets (store : VectorStore) (cohereKey : Option String)
    (reorder : String → List Document → List Document) (q : String) (k : Nat)
    (hlen : ∀ q2 ds, (reorder q2 ds).length ≤ ds.length) :
    hybrid_retrieve (mkRAGEngine store cohereKey reorder) q k =
      (deduplicate_documents
        (retrieve (mkRAGEngine store cohereKey reorder) q 2
            (some [("doc_type", MValue.s "incident")]) ++
         retrieve (mkRAGEngine store cohereKey reorder) q 2
            (some [("doc_type", MValue.s "solution")]) ++
         retrieve (mkRAGEngine store cohereKey reorder) q 1
            (some [("doc_type", MValue.s "best_practice")]))).take k ∧
    ((mkRAGEngine store cohereKey reorder).reranker = none →
      (hybrid_retrieve (mkRAGEngine store cohereKey reorder) q k).length ≤ min k 5) ∧
    (hybrid_retrieve (mkRAGEngine store cohereKey reorder) q k).length ≤ min k 10 := by
  have hb1 : (retrieve (mkRAGEngine store cohereKey reorder) q 2
      (some [("doc_type", MValue.s "incident")])).length ≤ 4 := by
    cases hre : (mkRAGEngine store cohereKey reorder).reranker with
    | none => exact le_trans (retrieve_length_bound_none _ q 2 _ hre) (by omega)
    | some r =>
      refine retrieve_length_bound_some _ q 2 _ r hre ?_
      intro q2 ds
      simp only [mkRAGEngine] at hre
      by_cases hk : keyTruthy cohereKey
      · rw [if_pos hk] at hre
        injection hre with h
        subst h
        exact hlen q2 ds
      · rw [if_neg hk] at hre
        cases hre
  have hb2 : (retrieve (mkRAGEngine store cohereKey reorder) q 2
      (some [("doc_type", MValue.s "solution")])).length ≤ 4 := by
    cases hre : (mkRAGEngine store cohereKey reorder).reranker with
    | none => exact le_trans (retrieve_length_bound_none _ q 2 _ hre) (by omega)
    | some r =>
      refine retrieve_length_bound_some _ q 2 _ r hre ?_
      intro q2 ds
      simp only [mkRAGEngine] at hre
      by_cases hk : keyTruthy cohereKey
      · rw [if_pos hk] at hre
        injection hre with h
        subst h
        exact hlen q2 ds
      · rw [if_neg hk] at hre
        cases hre
  have hb3 : (retrieve (mkRAGEngine store cohereKey reorder) q 1
      (some [("doc_type", MValue.s "best_practice")])).length ≤ 2 := by
    cases hre : (mkRAGEngine store cohereKey reorder).reranker with
    | none => exact le_trans (retrieve_length_bound_none _ q 1 _ hre) (by omega)
    | some r =>
      refine retrieve_length_bound_some _ q 1 _ r hre ?_
      intro q2 ds
      simp only [mkRAGEngine] at hre
      by_cases hk : keyTruthy cohereKey
      · rw [if_pos hk] at hre
        injection hre with h
        subst h
        exact hlen q2 ds
      · rw [if_neg hk] at hre
        cases hre
  have e1 : retrieve_similar_incidents (mkRAGEngine store cohereKey reorder) q 2 =
      retrieve (mkRAGEngine store cohereKey reorder) q 2
        (some [("doc_type", MValue.s "incident")]) := rfl
  have e2 : retrieve_solutions (mkRAGEngine store cohereKey reorder) q 2 =
      retrieve (mkRAGEngine store cohereKey reorder) q 2
        (some [("doc_type", MValue.s "solution")]) := rfl
  have e3 : retrieve_best_practices (mkRAGEngine store cohereKey reorder) q 1 =
      retrieve (mkRAGEngine store cohereKey reorder) q 1
        (some [("doc_type", MValue.s "best_practice")]) := rfl
  have hd := dedup_length_le
    (retrieve (mkRAGEngine store cohereKey reorder) q 2
        (some [("doc_type", MValue.s "incident")]) ++
      retrieve (mkRAGEngine store cohereKey reorder) q 2
        (some [("doc_type", MValue.s "solution")]) ++
      retrieve (mkRAGEngine store cohereKey reorder) q 1
        (some [("doc_type", MValue.s "best_practice")]))
  simp only [List.length_append] at hd
  refine ⟨rfl, ?_, ?_⟩
  · intro hre
    have c1 := retrieve_length_bound_none (mkRAGEngine store cohereKey reorder) q 2
      (some [("doc_type", MValue.s "incident")]) hre
    have c2 := retrieve_length_bound_none (mkRAGEngine store cohereKey reorder) q 2
      (some [("doc_type", MValue.s "solution")]) hre
    have c3 := retrieve_length_bound_none (mkRAGEngine store cohereKey reorder) q 1
      (some [("doc_type", MValue.s "best_practice")]) hre
    rw [hybrid_retrieve, e1, e2, e3, List.length_take]
    omega
  · rw [hybrid_retrieve, e1, e2, e3, List.length_take]
    omega

/-- Witness for the amended C3 on the concrete re-ranked engine. -/
theorem C3_amended_hybrid_budgets_witness :
    hybrid_retrieve (mkRAGEngine vsTen (some "ck") (fun _ ds => ds)) "q" 7 =
      (deduplicate_documents
        (retrieve (mkRAGEngine vsTen (some "ck") (fun _ ds => ds)) "q" 2
            (some [("doc_type", MValue.s "incident")]) ++
         retrieve (mkRAGEngine vsTen (some "ck") (fun _ ds => ds)) "q" 2
            (some [("doc_type", MValue.s "solution")]) ++
         retrieve (mkRAGEngine vsTen (some "ck") (fun _ ds => ds)) "q" 1
            (some [("doc_type", MValue.s "best_practice")]))).take 7 ∧
    ((mkRAGEngine vsTen (some "ck") (fun _ ds => ds)).reranker = none →
      (hybrid_retrieve (mkRAGEngine vsTen (some "ck") (fun _ ds => ds)) "q" 7).length ≤ min 7 5) ∧
    (hybrid_retrieve (mkRAGEngine vsTen (some "ck") (fun _ ds => ds)) "q" 7).length ≤ min 7 10 :=
  C3_amended_hybrid_budgets vsTen (some "ck") (fun _ ds => ds) "q" 7
    (fun _ ds => Nat.le_refl ds.length)

theorem filesRead_filesWrite (name : String) (r : Rec) (fs : List (String × Rec)) :
    filesRead name (filesWrite name r fs) = some r := by
  induction fs with
  | nil => simp [filesRead, filesWrite, List.lookup]
  | cons p rest ih =>
    obtain ⟨n, r2⟩ := p
    by_cases h : n = name
    · rw [filesWrite, if_pos h]
      simp [filesRead, List.lookup]
    · rw [filesWrite, if_neg h]
      have hb : (name == n) = false := beq_eq_false_iff_ne.mpr (fun hh => h hh.symm)
      simp only [filesRead, List.lookup, hb] at ih ⊢
      exact ih

theorem filesRead_filesWrite_ne (name name2 : String) (r : Rec) (fs : List (String × Rec))
    (hne : name ≠ name2) :
    filesRead name (filesWrite name2 r fs) = filesRead name fs := by
  have hb2 : (name == name2) = false := beq_eq_false_iff_ne.mpr hne
  induction fs with
  | nil => simp only [filesWrite, filesRead, List.lookup, hb2]
  | cons p rest ih =>
    obtain ⟨n, r2⟩ := p
    by_cases h : n = name2
    · rw [filesWrite, if_pos h]
      have hb1 : (name == n) = false := by rw [h]; exact hb2
      simp only [filesRead, List.lookup, hb1, hb2]
    · rw [filesWrite, if_neg h]
      simp only [filesRead, List.lookup] at ih ⊢
      cases hb : (name == n) with
      | true => rfl
      | false => exact ih

theorem recGet_recSet_same (k : String) (v : MValue) (r : Rec) :
    recGet k (recSet k v r) = some v := by
  induction r with
  | nil => simp [recGet, recSet, List.lookup]
  | cons p rest ih =>
    obtain ⟨k2, v2⟩ := p
    by_cases h : k2 = k
    · rw [recSet, if_pos h]
      simp [recGet, List.lookup]
    · rw [recSet, if_neg h]
      have hb : (k == k2) = false := beq_eq_false_iff_ne.mpr (fun hh => h hh.symm)
      simp only [recGet, List.lookup, hb] at ih ⊢
      exact ih

theorem recGet_recSet_ne (k k2 : String) (v : MValue) (r : Rec) (hne : k ≠ k2) :
    recGet k (recSet k2 v r) = recGet k r := by
  have hb2 : (k == k2) = false := beq_eq_false_iff_ne.mpr hne
  induction r with
  | nil => simp only [recSet, recGet, List.lookup, hb2]
  | cons p rest ih =>
    obtain ⟨k3, v3⟩ := p
    by_cases h : k3 = k2
    · rw [recSet, if_pos h]
      have hb1 : (k == k3) = false := by rw [h]; exact hb2
      simp only [recGet, List.lookup, hb1, hb2]
    · rw [recSet, if_neg h]
      simp only [recGet, List.lookup] at ih ⊢
      cases hb : (k == k3) with
      | true => rfl
      | false => exact ih

theorem str_append_cancel_left (s a b : String) (h : s ++ a = s ++ b) : a = b := by
  have hd := congrArg String.data h
  simp only [String.data_append] at hd
  have h2 := List.append_cancel_left hd
  cases a with
  | mk da =>
    cases b with
    | mk db => exact congrArg (fun l => ({ data := l } : String)) h2

theorem str_append_cancel_right (a b t : String) (h : a ++ t = b ++ t) : a = b := by
  have hd := congrArg String.data h
  simp only [String.data_append] at hd
  have h2 := List.append_cancel_right hd
  cases a with
  | mk da =>
    cases b with
    | mk db => exact congrArg (fun l => ({ data := l } : String)) h2

/-- C2 counterexample: when the index write fails after a successful
durable write, add_incident re-raises (the except block logs and
re-raises), so the failure IS propagated to the caller — the record does
remain durable, but the claim's "does not propagate" part is false. -/
theorem C2_counterexample :
    (add_incident idxFailDown kbEmpty incRecA isoT stampT).2 = Except.error "index down" ∧
    filesRead "INC-20240101120000.json"
      (add_incident idxFailDown kbEmpty incRecA isoT stampT).1.incidentFiles ≠ none := by
  exact ⟨rfl, by decide⟩

/-- C2 amended: if the vector-index write fails during add_incident, the
failure propagates to the caller (after being logged), but the record is
already persisted and remains present in durable storage under
incidents/<id>.json. -/
theorem C2_amended_propagates_but_durable
    (idxAdd : List Document → Except String (List String)) (kb : KBState)
    (incident : Rec) (nowIso nowStamp err : String)
    (hf : ∀ ds, idxAdd ds = Except.error err) :
    (add_incident idxAdd kb incident nowIso nowStamp).2 = Except.error err ∧
    filesRead ((orGenId incident "INC" nowStamp).render ++ ".json")
        (add_incident idxAdd kb incident nowIso nowStamp).1.incidentFiles =
      some (recSet "timestamp"
        (match recGet "timestamp" incident with
         | some v => if v.truthy then v else .s nowIso
         | none => .s nowIso)
        (recSet "id" (orGenId incident "INC" nowStamp) incident)) := by
  rw [add_incident]
  rw [hf]
  exact ⟨rfl, filesRead_filesWrite _ _ _⟩

/-- Witness for the amended C2 at the concrete failing index backend. -/
theorem C2_amended_propagates_but_durable_witness :
    (add_incident idxFailDown kbEmpty incRecA isoT stampT).2 = Except.error "index down" ∧
    filesRead ((orGenId incRecA "INC" stampT).render ++ ".json")
        (add_incident idxFailDown kbEmpty incRecA isoT stampT).1.incidentFiles =
      some (recSet "timestamp"
        (match recGet "timestamp" incRecA with
         | some v => if v.truthy then v else .s isoT
         | none => .s isoT)
        (recSet "id" (orGenId incRecA "INC" stampT) incRecA)) :=
  C2_amended_propagates_but_durable idxFailDown kbEmpty incRecA isoT stampT "index down"
    (fun _ => rfl)

/-- C6: add_incident on a record with no id and no timestamp generates the
id INC-<timestamp>, assigns the current timestamp, writes the record to
<id>.json in the incidents sub-collection before the index upsert (the
file is present in the resulting state whatever the index write returns),
and returns that id on success. -/
theorem C6_add_incident_id_and_persistence
    (idxAdd : List Document → Except String (List String)) (kb : KBState)
    (incident : Rec) (nowIso nowStamp : String)
    (hid : recGet "id" incident = none) (hts : recGet "timestamp" incident = none) :
    orGenId incident "INC" nowStamp = MValue.s ("INC-" ++ nowStamp) ∧
    (∀ x, (add_incident idxAdd kb incident nowIso nowStamp).2 = Except.ok x →
      x = "INC-" ++ nowStamp) ∧
    filesRead ("INC-" ++ nowStamp ++ ".json")
        (add_incident idxAdd kb incident nowIso nowStamp).1.incidentFiles =
      some (recSet "timestamp" (MValue.s nowIso)
        (recSet "id" (MValue.s ("INC-" ++ nowStamp)) incident)) ∧
    recGet "timestamp" (recSet "timestamp" (MValue.s nowIso)
        (recSet "id" (MValue.s ("INC-" ++ nowStamp)) incident)) = some (MValue.s nowIso) ∧
    recGet "id" (recSet "timestamp" (MValue.s nowIso)
        (recSet "id" (MValue.s ("INC-" ++ nowStamp)) incident)) =
      some (MValue.s ("INC-" ++ nowStamp)) := by
  have hidv : orGenId incident "INC" nowStamp = MValue.s ("INC-" ++ nowStamp) := by
    simp only [orGenId, hid]
    rfl
  refine ⟨hidv, ?_, ?_, recGet_recSet_same _ _ _, ?_⟩
  · intro x hx
    rw [add_incident] at hx
    cases hidx : idxAdd (split_documents
      [{ page_content := format_incident
          (recSet "timestamp"
            (match recGet "timestamp" incident with
             | some v => if v.truthy then v else .s nowIso
             | none => .s nowIso)
            (recSet "id" (orGenId incident "INC" nowStamp) incident)),
         metadata := [("doc_type", .s "incident"),
                      ("incident_id", orGenId incident "INC" nowStamp),
                      ("severity", (recGet "severity"
                        (recSet "timestamp"
                          (match recGet "timestamp" incident with
                           | some v => if v.truthy then v else .s nowIso
                           | none => .s nowIso)
                          (recSet "id" (orGenId incident "INC" nowStamp) incident))).getD .null),
                      ("timestamp",
                        (match recGet "timestamp" incident with
                         | some v => if v.truthy then v else .s nowIso
                         | none => .s nowIso))] }]) with
    | error e2 =>
      rw [hidx] at hx
      cases hx
    | ok ids =>
      rw [hidx] at hx
      injection hx with h
      rw [← h, hidv]
      rfl
  · rw [add_incident]
    cases hidx : idxAdd (split_documents
      [{ page_content := format_incident
          (recSet "timestamp"
            (match recGet "timestamp" incident with
             | some v => if v.truthy then v else .s nowIso
             | none => .s nowIso)
            (recSet "id" (orGenId incident "INC" nowStamp) incident)),
         metadata := [("doc_type", .s "incident"),
                      ("incident_id", orGenId incident "INC" nowStamp),
                      ("severity", (recGet "severity"
                        (recSet "timestamp"
                          (match recGet "timestamp" incident with
                           | some v => if v.truthy then v else .s nowIso
                           | none => .s nowIso)
                          (recSet "id" (orGenId incident "INC" nowStamp) incident))).getD .null),
                      ("timestamp",
                        (match recGet "timestamp" incident with
                         | some v => if v.truthy then v else .s nowIso
                         | none => .s nowIso))] }]) with
    | error e2 =>
      simp only [hidv, hts, MValue.render]
      exact filesRead_filesWrite _ _ _
    | ok ids =>
      simp only [hidv, hts, MValue.render]
      exact filesRead_filesWrite _ _ _
  · rw [recGet_recSet_ne "id" "timestamp" _ _ (by decide)]
    exact recGet_recSet_same _ _ _

/-- Witness for C6 at a concrete record, times and index backend. -/
theorem C6_add_incident_id_and_persistence_witness :
    orGenId incRecA "INC" stampT = MValue.s ("INC-" ++ stampT) ∧
    (∀ x, (add_incident idxOk kbEmpty incRecA isoT stampT).2 = Except.ok x →
      x = "INC-" ++ stampT) ∧
    filesRead ("INC-" ++ stampT ++ ".json")
        (add_incident idxOk kbEmpty incRecA isoT stampT).1.incidentFiles =
      some (recSet "timestamp" (MValue.s isoT)
        (recSet "id" (MValue.s ("INC-" ++ stampT)) incRecA)) ∧
    recGet "timestamp" (recSet "timestamp" (MValue.s isoT)
        (recSet "id" (MValue.s ("INC-" ++ stampT)) incRecA)) = some (MValue.s isoT) ∧
    recGet "id" (recSet "timestamp" (MValue.s isoT)
        (recSet "id" (MValue.s ("INC-" ++ stampT)) incRecA)) =
      some (MValue.s ("INC-" ++ stampT)) :=
  C6_add_incident_id_and_persistence idxOk kbEmpty incRecA isoT stampT (by decide) (by decide)

/-- C7 counterexample: two successive add_solution calls in the same
second (identical strftime stamp) generate the SAME id, and the second
durable write overwrites the first — afterwards only one file exists and
it holds the second record. -/
theorem C7_counterexample :
    (add_solution idxOk kbEmpty solRecA stampT).2 = Except.ok ("SOL-" ++ stampT) ∧
    (add_solution idxOk (add_solution idxOk kbEmpty solRecA stampT).1 solRecB stampT).2 =
      Except.ok ("SOL-" ++ stampT) ∧
    (add_solution idxOk (add_solution idxOk kbEmpty solRecA stampT).1
        solRecB stampT).1.solutionFiles =
      [("SOL-" ++ stampT ++ ".json", recSet "id" (MValue.s ("SOL-" ++ stampT)) solRecB)] := by
  refine ⟨rfl, rfl, by decide⟩

/-- C7 amended: two successive add_solution calls on records without ids
produce distinct ids if and only if the second-granularity timestamps of
the two calls differ; when they differ, both records are independently
retrievable from durable storage afterwards. -/
theorem C7_amended_distinct_when_stamps_differ
    (idxAdd : List Document → Except String (List String)) (kb : KBState)
    (sol1 sol2 : Rec) (t1 t2 : String)
    (h1 : recGet "id" sol1 = none) (h2 : recGet "id" sol2 = none) (hne : t1 ≠ t2) :
    ("SOL-" ++ t1) ≠ ("SOL-" ++ t2) ∧
    filesRead ("SOL-" ++ t1 ++ ".json")
        (add_solution idxAdd (add_solution idxAdd kb sol1 t1).1 sol2 t2).1.solutionFiles =
      some (recSet "id" (MValue.s ("SOL-" ++ t1)) sol1) ∧
    filesRead ("SOL-" ++ t2 ++ ".json")
        (add_solution idxAdd (add_solution idxAdd kb sol1 t1).1 sol2 t2).1.solutionFiles =
      some (recSet "id" (MValue.s ("SOL-" ++ t2)) sol2) := by
  have hids : ("SOL-" ++ t1) ≠ ("SOL-" ++ t2) := by
    intro h
    exact hne (str_append_cancel_left "SOL-" t1 t2 h)
  have hnames : ("SOL-" ++ t1 ++ ".json") ≠ ("SOL-" ++ t2 ++ ".json") := by
    intro h
    exact hids (str_append_cancel_right _ _ ".json" h)
  have hv1 : orGenId sol1 "SOL" t1 = MValue.s ("SOL-" ++ t1) := by
    simp only [orGenId, h1]
    rfl
  have hv2 : orGenId sol2 "SOL" t2 = MValue.s ("SOL-" ++ t2) := by
    simp only [orGenId, h2]
    rfl
  have hstate1 : (add_solution idxAdd kb sol1 t1).1.solutionFiles =
      filesWrite ("SOL-" ++ t1 ++ ".json")
        (recSet "id" (MValue.s ("SOL-" ++ t1)) sol1) kb.solutionFiles := by
    rw [add_solution]
    cases hidx : idxAdd (split_documents
      [{ page_content := format_solution (recSet "id" (orGenId sol1 "SOL" t1) sol1),
         metadata := [("doc_type", .s "solution"),
                      ("solution_id", orGenId sol1 "SOL" t1),
                      ("problem_type",
                        (recGet "problem_type"
                          (recSet "id" (orGenId sol1 "SOL" t1) sol1)).getD .null)] }]) with
    | error e2 => simp only [hv1, MValue.render]
    | ok ids => simp only [hv1, MValue.render]
  have hstate2 : (add_solution idxAdd (add_solution idxAdd kb sol1 t1).1 sol2 t2).1.solutionFiles =
      filesWrite ("SOL-" ++ t2 ++ ".json")
        (recSet "id" (MValue.s ("SOL-" ++ t2)) sol2)
        (add_solution idxAdd kb sol1 t1).1.solutionFiles := by
    rw [add_solution]
    cases hidx : idxAdd (split_documents
      [{ page_content := format_solution (recSet "id" (orGenId sol2 "SOL" t2) sol2),
         metadata := [("doc_type", .s "solution"),
                      ("solution_id", orGenId sol2 "SOL" t2),
                      ("problem_type",
                        (recGet "problem_type"
                          (recSet "id" (orGenId sol2 "SOL" t2) sol2)).getD .null)] }]) with
    | error e2 => simp only [hv2, MValue.render]
    | ok ids => simp only [hv2, MValue.render]
  refine ⟨hids, ?_, ?_⟩
  · rw [hstate2, filesRead_filesWrite_ne _ _ _ _ hnames, hstate1]
    exact filesRead_filesWrite _ _ _
  · rw [hstate2]
    exact filesRead_filesWrite _ _ _

/-- Witness for the amended C7 with two distinct stamps. -/
theorem C7_amended_distinct_when_stamps_differ_witness :
    ("SOL-" ++ "20240101120000") ≠ ("SOL-" ++ "20240101120001") ∧
    filesRead ("SOL-" ++ "20240101120000" ++ ".json")
        (add_solution idxOk (add_solution idxOk kbEmpty solRecA "20240101120000").1
          solRecB "20240101120001").1.solutionFiles =
      some (recSet "id" (MValue.s ("SOL-" ++ "20240101120000")) solRecA) ∧
    filesRead ("SOL-" ++ "20240101120001" ++ ".json")
        (add_solution idxOk (add_solution idxOk kbEmpty solRecA "20240101120000").1
          solRecB "20240101120001").1.solutionFiles =
      some (recSet "id" (MValue.s ("SOL-" ++ "20240101120001")) solRecB) :=
  C7_amended_distinct_when_stamps_differ idxOk kbEmpty solRecA solRecB
    "20240101120000" "20240101120001" (by decide) (by decide) (by decide)

theorem leadsWith_eq (s : List Char) : ∀ t, leadsWith s t = true → t = s ++ t.drop s.length := by
  induction s with
  | nil => intro t _; simp
  | cons a as ih =>
    intro t h
    cases t with
    | nil => simp [leadsWith] at h
    | cons b bs =>
      rw [leadsWith, Bool.and_eq_true, beq_iff_eq] at h
      obtain ⟨hab, hlw⟩ := h
      subst hab
      have := ih bs hlw
      simp only [List.length_cons, List.cons_append, List.drop_succ_cons]
      exact congrArg (a :: ·) this

theorem splitKeepGo_flatten (s0 : Char) (sepr : List Char) :
    ∀ (fuel : Nat) (acc rem : List Char), rem.length < fuel →
      (splitKeepGo s0 sepr fuel acc rem).flatten = acc.reverse ++ rem := by
  intro fuel
  induction fuel with
  | zero => intro acc rem h; exact absurd h (Nat.not_lt_zero _)
  | succ n ih =>
    intro acc rem h
    cases rem with
    | nil => simp [splitKeepGo]
    | cons c rest =>
      rw [splitKeepGo]
      by_cases hlw : leadsWith (s0 :: sepr) (c :: rest) = true
      · rw [if_pos hlw]
        rw [List.flatten_cons]
        have hlen : (rest.drop sepr.length).length < n := by
          have h1 : (rest.drop sepr.length).length ≤ rest.length := by
            simp [List.length_drop]
          have h2 : rest.length < n := by
            simp only [List.length_cons] at h
            omega
          omega
        rw [ih ((s0 :: sepr).reverse) (rest.drop sepr.length) hlen]
        rw [List.reverse_reverse]
        have he := leadsWith_eq (s0 :: sepr) (c :: rest) hlw
        simp only [List.length_cons, List.drop_succ_cons] at he
        exact congrArg (acc.reverse ++ ·) he.symm
      · rw [if_neg hlw]
        have hlen : rest.length < n := by
          simp only [List.length_cons] at h
          omega
        rw [ih (c :: acc) rest hlen]
        simp

theorem filter_nonempty_flatten (l : List (List Char)) :
    (l.filter (fun p => ¬ p.isEmpty)).flatten = l.flatten := by
  induction l with
  | nil => rfl
  | cons p rest ih =>
    cases hp : p.isEmpty with
    | true =>
      have hpe : p = [] := List.isEmpty_iff.mp hp
      subst hpe
      rw [List.filter_cons_of_neg (by decide)]
      simpa using ih
    | false =>
      rw [List.filter_cons_of_pos (by simp [hp])]
      rw [List.flatten_cons, List.flatten_cons, ih]

theorem splitPieces_flatten (sep text : List Char) :
    (splitPieces sep text).flatten = text := by
  cases sep with
  | nil =>
    rw [splitPieces, filter_nonempty_flatten]
    induction text with
    | nil => rfl
    | cons c rest ih => simpa using ih
  | cons s0 sepr =>
    rw [splitPieces, filter_nonempty_flatten]
    rw [splitKeepGo_flatten s0 sepr (text.length + 1) [] text (Nat.lt_succ_self _)]
    rfl

theorem mem_length_le_flatten (l : List (List Char)) (p : List Char) (hp : p ∈ l) :
    p.length ≤ l.flatten.length := by
  induction l with
  | nil => cases hp
  | cons q rest ih =>
    rw [List.flatten_cons, List.length_append]
    rcases List.mem_cons.mp hp with h | h
    · subst h; omega
    · have := ih h; omega

theorem splitPieces_length_le (sep text : List Char) (p : List Char)
    (hp : p ∈ splitPieces sep text) : p.length ≤ text.length := by
  have := mem_length_le_flatten (splitPieces sep text) p hp
  rwa [splitPieces_flatten] at this

theorem splitPieces_nil_length (text : List Char) (p : List Char)
    (hp : p ∈ splitPieces [] text) : p.length = 1 := by
  rw [splitPieces] at hp
  have h2 := List.mem_of_mem_filter hp
  obtain ⟨c, _, hc⟩ := List.mem_map.mp h2
  rw [← hc]
  rfl

theorem stripL_length_le (l : List Char) : (stripL l).length ≤ l.length := by
  rw [stripL]
  have h1 := (List.dropWhile_sublist (l := l) Char.isWhitespace).length_le
  have h2 := (List.dropWhile_sublist
    (l := (l.dropWhile Char.isWhitespace).reverse) Char.isWhitespace).length_le
  simp only [List.length_reverse] at *
  omega

theorem intercalc_nil : ∀ l : List (List Char), intercalc [] l = l.flatten := by
  intro l
  induction l with
  | nil => rfl
  | cons p rest ih =>
    cases rest with
    | nil => simp [intercalc]
    | cons q tail =>
      rw [intercalc, ih]
      simp

theorem joinDocs_nil_sep (cur : List (List Char)) :
    joinDocs cur [] = if (stripL cur.flatten).isEmpty then none else some (stripL cur.flatten) := by
  rw [joinDocs, intercalc_nil]

theorem popLoop_inv (dLen : Int) : ∀ (cur : List (List Char)) (total : Int),
    total = (((cur.map List.length).sum : Nat) : Int) →
    (popLoop 0 dLen cur total).2 =
      ((((popLoop 0 dLen cur total).1.map List.length).sum : Nat) : Int) ∧
    (popLoop 0 dLen cur total).2 ≤ chunkOverlap ∧
    ((popLoop 0 dLen cur total).2 + dLen ≤ chunkSize ∨ (popLoop 0 dLen cur total).2 = 0) := by
  intro cur
  induction cur with
  | nil =>
    intro total ht
    simp only [List.map_nil, List.sum_nil, Nat.cast_zero] at ht
    subst ht
    rw [popLoop]
    refine ⟨by simp, by rw [chunkOverlap]; omega, Or.inr rfl⟩
  | cons p cs ih =>
    intro total ht
    have hite : (if (p :: cs).length > 1 then (0 : Int) else 0) = 0 := ite_self 0
    have h0 : (0 : Int) ≤ total := by
      rw [ht]
      exact Int.natCast_nonneg _
    rw [popLoop, hite]
    split
    · apply ih
      simp only [List.map_cons, List.sum_cons] at ht
      push_cast at ht ⊢
      omega
    · next hcond =>
      push_neg at hcond
      obtain ⟨hov, himp⟩ := hcond
      refine ⟨ht, hov, ?_⟩
      by_cases hbig : total + dLen + 0 > chunkSize
      · have := himp hbig
        exact Or.inr (by omega)
      · exact Or.inl (by omega)

theorem joinDocs_bound (cur : List (List Char)) (total : Int)
    (ht : total = (((cur.map List.length).sum : Nat) : Int)) (htb : total ≤ chunkSize) :
    ∀ c ∈ (joinDocs cur []).toList, c.length ≤ 1000 := by
  intro c hc
  rw [joinDocs_nil_sep] at hc
  by_cases he : (stripL cur.flatten).isEmpty
  · rw [if_pos he] at hc
    cases hc
  · rw [if_neg he] at hc
    simp only [Option.toList_some, List.mem_singleton] at hc
    subst hc
    have h1 := stripL_length_le cur.flatten
    have h2 : cur.flatten.length = (cur.map List.length).sum := by
      simp [List.length_flatten]
    rw [chunkSize] at htb
    omega

theorem mergeLoop_bound : ∀ (splits cur : List (List Char)) (total : Int)
    (docs : List (List Char)),
    (∀ p ∈ splits, (p.length : Int) < chunkSize) →
    total = (((cur.map List.length).sum : Nat) : Int) →
    total ≤ chunkSize →
    (∀ c ∈ docs, c.length ≤ 1000) →
    ∀ c ∈ mergeLoop [] splits cur total docs, c.length ≤ 1000 := by
  intro splits
  induction splits with
  | nil =>
    intro cur total docs _ ht htb hd c hc
    rw [mergeLoop] at hc
    rcases List.mem_append.mp hc with h | h
    · exact hd c h
    · exact joinDocs_bound cur total ht htb c h
  | cons d rest ih =>
    intro cur total docs hs ht htb hd c hc
    have hdlen : ((d.length : Nat) : Int) < chunkSize := hs d (List.mem_cons_self _ _)
    have hs2 : ∀ p ∈ rest, ((p.length : Nat) : Int) < chunkSize :=
      fun p hp => hs p (List.mem_cons_of_mem _ hp)
    simp only [mergeLoop, List.length_nil, Nat.cast_zero, ite_self, add_zero] at hc
    split at hc
    · next hov =>
      by_cases hcur : cur.length > 0
      · rw [if_pos hcur, if_pos hcur] at hc
        obtain ⟨hi1, _, hi3⟩ := popLoop_inv (d.length : Int) cur total ht
        refine ih ((popLoop 0 (↑d.length) cur total).1 ++ [d])
          ((popLoop 0 (↑d.length) cur total).2 + ↑d.length)
          (docs ++ (joinDocs cur []).toList) hs2 ?_ ?_ ?_ c hc
        · simp only [List.map_append, List.map_cons, List.map_nil, List.sum_append,
            List.sum_cons, List.sum_nil]
          push_cast at hi1 ⊢
          omega
        · rcases hi3 with h | h
          · omega
          · rw [chunkSize] at hdlen ⊢
            omega
        · intro c2 hc2
          rcases List.mem_append.mp hc2 with h | h
          · exact hd c2 h
          · exact joinDocs_bound cur total ht htb c2 h
      · rw [if_neg hcur, if_neg hcur] at hc
        exfalso
        have hc0 : cur = [] := by
          cases cur with
          | nil => rfl
          | cons x xs => simp at hcur
        subst hc0
        simp only [List.map_nil, List.sum_nil, Nat.cast_zero] at ht
        rw [chunkSize] at hov hdlen
        omega
    · next hov =>
      push_neg at hov
      refine ih (cur ++ [d]) (total + ↑d.length) docs hs2 ?_ ?_ hd c hc
      · simp only [List.map_append, List.map_cons, List.map_nil, List.sum_append,
          List.sum_cons, List.sum_nil]
        push_cast at ht ⊢
        omega
      · exact hov

theorem mergeLoop_allfit : ∀ (splits cur : List (List Char)) (total : Int)
    (docs : List (List Char)),
    total = (((cur.map List.length).sum : Nat) : Int) →
    total + (((splits.map List.length).sum : Nat) : Int) ≤ chunkSize →
    mergeLoop [] splits cur total docs = docs ++ (joinDocs (cur ++ splits) []).toList := by
  intro splits
  induction splits with
  | nil =>
    intro cur total docs _ _
    rw [mergeLoop, List.append_nil]
  | cons d rest ih =>
    intro cur total docs ht hfit
    simp only [List.map_cons, List.sum_cons, Nat.cast_add] at hfit
    have hov : ¬ (total + ((d.length : Nat) : Int) > chunkSize) := by omega
    simp only [mergeLoop, List.length_nil, Nat.cast_zero, ite_self, add_zero]
    rw [if_neg hov]
    rw [ih (cur ++ [d]) (total + ↑d.length) docs ?ht2 ?hfit2]
    · rw [List.append_assoc]
      rfl
    case ht2 =>
      simp only [List.map_append, List.map_cons, List.map_nil, List.sum_append,
        List.sum_cons, List.sum_nil, Nat.cast_add, Nat.cast_zero]
      omega
    case hfit2 => omega

theorem procSplits_allgood (recurse : List Char → List (List Char)) (noNew : Bool) :
    ∀ (splits good : List (List Char)),
    (∀ p ∈ splits, ((p.length : Nat) : Int) < chunkSize) →
    procSplits recurse noNew [] splits good =
      (if (good ++ splits).isEmpty then [] else mergeSplits (good ++ splits) []) := by
  intro splits
  induction splits with
  | nil =>
    intro good _
    rw [procSplits, List.append_nil]
  | cons s rest ih =>
    intro good hs
    rw [procSplits, if_pos (hs s (List.mem_cons_self _ _))]
    rw [ih (good ++ [s]) (fun p hp => hs p (List.mem_cons_of_mem _ hp))]
    rw [List.append_assoc]
    rfl

theorem procSplits_bound (recurse : List Char → List (List Char)) (noNew : Bool) :
    ∀ (splits good : List (List Char)),
    (noNew = true → ∀ p ∈ splits, ((p.length : Nat) : Int) < chunkSize) →
    (noNew = false → ∀ s : List Char, ¬ (((s.length : Nat) : Int) < chunkSize) →
      ∀ c ∈ recurse s, c.length ≤ 1000) →
    (∀ p ∈ good, ((p.length : Nat) : Int) < chunkSize) →
    ∀ c ∈ procSplits recurse noNew [] splits good, c.length ≤ 1000 := by
  intro splits
  induction splits with
  | nil =>
    intro good _ _ hg c hc
    rw [procSplits] at hc
    by_cases he : good.isEmpty = true
    · rw [if_pos he] at hc
      cases hc
    · rw [if_neg he] at hc
      rw [mergeSplits] at hc
      exact mergeLoop_bound good [] 0 [] hg (by simp) (by rw [chunkSize]; omega)
        (fun c2 hc2 => absurd hc2 (List.not_mem_nil c2)) c hc
  | cons s rest ih =>
    intro good hno hrec hg c hc
    rw [procSplits] at hc
    by_cases hsl : ((s.length : Nat) : Int) < chunkSize
    · rw [if_pos hsl] at hc
      refine ih (good ++ [s]) (fun ht p hp => hno ht p (List.mem_cons_of_mem _ hp))
        hrec ?_ c hc
      intro p hp
      rcases List.mem_append.mp hp with h | h
      · exact hg p h
      · rw [List.mem_singleton.mp h]
        exact hsl
    · rw [if_neg hsl] at hc
      rcases List.mem_append.mp hc with h12 | h3
      · rcases List.mem_append.mp h12 with h | h2
        · by_cases he : good.isEmpty = true
          · rw [if_pos he] at h
            cases h
          · rw [if_neg he] at h
            rw [mergeSplits] at h
            exact mergeLoop_bound good [] 0 [] hg (by simp) (by rw [chunkSize]; omega)
              (fun c2 hc2 => absurd hc2 (List.not_mem_nil c2)) c h
        · by_cases hnn : noNew = true
          · rw [if_pos hnn] at h2
            rw [List.mem_singleton.mp h2]
            exact absurd (hno hnn s (List.mem_cons_self _ _)) hsl
          · rw [if_neg hnn] at h2
            have hf : noNew = false := by
              cases noNew
              · rfl
              · exact absurd rfl hnn
            exact hrec hf s hsl c h2
      · exact ih [] (fun ht p hp => hno ht p (List.mem_cons_of_mem _ hp)) hrec
          (fun p hp => absurd hp (List.not_mem_nil p)) c h3

theorem chooseSep_len (text : List Char) : ∀ seps : List (List Char), seps ≠ [] →
    (chooseSep text seps).2.length < seps.length := by
  intro seps
  induction seps with
  | nil => intro h; exact absurd rfl h
  | cons s rest ih =>
    intro _
    cases rest with
    | nil => simp [chooseSep]
    | cons s2 tail =>
      rw [chooseSep]
      by_cases he : s.isEmpty = true
      · rw [if_pos he]
        simp
      · rw [if_neg he]
        by_cases ho : occursIn s text = true
        · rw [if_pos ho]
          simp
        · rw [if_neg ho]
          have := ih (by simp)
          simp only [List.length_cons] at *
          omega

theorem chooseSep_empty_mem (text : List Char) : ∀ seps : List (List Char), [] ∈ seps →
    ((chooseSep text seps).1 = [] → (chooseSep text seps).2 = []) ∧
    ((chooseSep text seps).1 ≠ [] → [] ∈ (chooseSep text seps).2) := by
  intro seps
  induction seps with
  | nil => intro h; cases h
  | cons s rest ih =>
    intro hmem
    cases rest with
    | nil =>
      have hs : s = [] := by
        rcases List.mem_cons.mp hmem with h | h
        · exact h.symm
        · cases h
      subst hs
      exact ⟨fun _ => rfl, fun h => absurd rfl h⟩
    | cons s2 tail =>
      rw [chooseSep]
      by_cases he : s.isEmpty = true
      · rw [if_pos he]
        exact ⟨fun _ => rfl, fun h => absurd rfl h⟩
      · rw [if_neg he]
        have hsne : s ≠ [] := by
          intro h
          rw [h] at he
          exact he rfl
        have hmem2 : [] ∈ s2 :: tail := by
          rcases List.mem_cons.mp hmem with h | h
          · exact absurd h.symm hsne
          · exact h
        by_cases ho : occursIn s text = true
        · rw [if_pos ho]
          exact ⟨fun h => absurd h hsne, fun _ => hmem2⟩
        · rw [if_neg ho]
          exact ih hmem2

theorem splitTextFuel_bound : ∀ (fuel : Nat) (seps : List (List Char)) (text : List Char),
    seps.length < fuel → [] ∈ seps →
    ∀ c ∈ splitTextFuel fuel text seps, c.length ≤ 1000 := by
  intro fuel
  induction fuel with
  | zero =>
    intro seps text h
    exact absurd h (Nat.not_lt_zero _)
  | succ n ih =>
    intro seps text hlen hmem c hc
    simp only [splitTextFuel] at hc
    refine procSplits_bound _ _ _ [] ?_ ?_
      (fun p hp => absurd hp (List.not_mem_nil p)) c hc
    · intro hempty p hp
      have h2 : (chooseSep text seps).2 = [] := List.isEmpty_iff.mp hempty
      by_cases h1 : (chooseSep text seps).1 = []
      · rw [h1] at hp
        have := splitPieces_nil_length text p hp
        rw [chunkSize]
        omega
      · have hm := (chooseSep_empty_mem text seps hmem).2 h1
        rw [h2] at hm
        cases hm
    · intro hne s _ c2 hc2
      have h2ne : (chooseSep text seps).2 ≠ [] := by
        intro he
        rw [he] at hne
        cases hne
      have h1ne : (chooseSep text seps).1 ≠ [] := by
        intro he
        exact h2ne ((chooseSep_empty_mem text seps hmem).1 he)
      have hm := (chooseSep_empty_mem text seps hmem).2 h1ne
      have hsne : seps ≠ [] := by
        intro he
        rw [he] at hmem
        cases hmem
      have hlt : (chooseSep text seps).2.length < n := by
        have := chooseSep_len text seps hsne
        omega
      exact ih (chooseSep text seps).2 s hlt hm c2 hc2

theorem splitTextFuel_short (fuel : Nat) (seps : List (List Char)) (text : List Char)
    (hf : 0 < fuel) (hlen : text.length < 1000) :
    splitTextFuel fuel text seps =
      if (stripL text).isEmpty then [] else [stripL text] := by
  cases fuel with
  | zero => exact absurd hf (by omega)
  | succ n =>
    simp only [splitTextFuel]
    have hall : ∀ p ∈ splitPieces (chooseSep text seps).1 text,
        ((p.length : Nat) : Int) < chunkSize := by
      intro p hp
      have := splitPieces_length_le _ text p hp
      rw [chunkSize]
      omega
    rw [procSplits_allgood _ _ _ [] hall, List.nil_append]
    by_cases he : (splitPieces (chooseSep text seps).1 text).isEmpty = true
    · rw [if_pos he]
      have hsp : splitPieces (chooseSep text seps).1 text = [] := List.isEmpty_iff.mp he
      have htx : text = [] := by
        have hfl := splitPieces_flatten (chooseSep text seps).1 text
        rw [hsp] at hfl
        exact hfl.symm
      rw [htx]
      rfl
    · rw [if_neg he]
      rw [mergeSplits]
      rw [mergeLoop_allfit (splitPieces (chooseSep text seps).1 text) [] 0 [] (by simp) ?_]
      · rw [List.nil_append, List.nil_append, joinDocs_nil_sep, splitPieces_flatten]
        by_cases hs : (stripL text).isEmpty = true
        · rw [if_pos hs, if_pos hs]
          rfl
        · rw [if_neg hs, if_neg hs]
          rfl
      · have hsum : ((splitPieces (chooseSep text seps).1 text).map List.length).sum =
            text.length := by
          have hfl := splitPieces_flatten (chooseSep text seps).1 text
          have := congrArg List.length hfl
          rwa [List.length_flatten] at this
        rw [hsum, chunkSize]
        omega

/-- C9 counterexample: the document " a " is shorter than chunk_size, yet
the configured splitter returns one chunk "a" — the content is stripped of
surrounding whitespace, not unmodified. -/
theorem C9_counterexample :
    (" a " : String).length < 1000 ∧
    split_documents [{ page_content := " a ", metadata := [] }] =
      [{ page_content := "a", metadata := [] }] ∧
    split_documents [{ page_content := " a ", metadata := [] }] ≠
      [{ page_content := " a ", metadata := [] }] := by
  refine ⟨by decide, by decide, by decide⟩

/-- C9 amended: for the configured chunker (chunk_size 1000, overlap 200,
separators paragraph/line/sentence-terminal/space/character), splitting an
empty document sequence yields the empty sequence; splitting one document
whose content is shorter than chunk_size yields exactly one chunk whose
content is the original stripped of leading/trailing whitespace (provided
the stripped content is non-empty; whitespace-only content yields no
chunk); and every produced chunk has length at most chunk_size and carries
its source document's metadata. -/
theorem C9_amended_chunker (d : Document) (docs : List Document)
    (hlen : d.page_content.length < 1000) (hne : stripS d.page_content ≠ "") :
    split_documents [] = [] ∧
    split_documents [d] =
      [{ page_content := stripS d.page_content, metadata := d.metadata }] ∧
    (∀ c ∈ split_documents docs,
      c.page_content.length ≤ 1000 ∧ ∃ e ∈ docs, c.metadata = e.metadata) := by
  refine ⟨rfl, ?_, ?_⟩
  · have hstrip : (stripL d.page_content.data).isEmpty = false := by
      cases hsl : (stripL d.page_content.data).isEmpty with
      | false => rfl
      | true =>
        exact absurd (congrArg String.mk (List.isEmpty_iff.mp hsl)) hne
    have hl2 : d.page_content.data.length < 1000 := hlen
    rw [split_documents]
    simp only [List.flatMap_cons, List.flatMap_nil, List.append_nil]
    rw [split_text, splitTextFuel_short (theSeparators.length + 1) theSeparators
      d.page_content.data (Nat.succ_pos _) hl2]
    rw [if_neg (by rw [hstrip]; exact Bool.false_ne_true)]
    rfl
  · intro c hc
    rw [split_documents] at hc
    obtain ⟨e, he, hce⟩ := List.mem_flatMap.mp hc
    obtain ⟨chunk, hchunk, hcc⟩ := List.mem_map.mp hce
    rw [split_text] at hchunk
    obtain ⟨cs, hcs, hcs2⟩ := List.mem_map.mp hchunk
    constructor
    · rw [← hcc]
      simp only
      rw [← hcs2]
      have hb := splitTextFuel_bound (theSeparators.length + 1) theSeparators
        e.page_content.data (Nat.lt_succ_self _) (by decide) cs hcs
      exact hb
    · exact ⟨e, he, by rw [← hcc]⟩

/-- Witness for the amended C9 at a concrete short document. -/
theorem C9_amended_chunker_witness :
    split_documents [] = [] ∧
    split_documents [docIncA] =
      [{ page_content := stripS docIncA.page_content, metadata := docIncA.metadata }] ∧
    (∀ c ∈ split_documents [docIncA],
      c.page_content.length ≤ 1000 ∧ ∃ e ∈ [docIncA], c.metadata = e.metadata) :=
  C9_amended_chunker docIncA [docIncA] (by decide) (by decide)
